import Mathlib

/-!
# Verification of `cleaner_threaded.py`

A shallow embedding of the file-organizing pipeline in
`src/cleaner_threaded.py` (class `Normalize` and class `CleanFolder`),
with theorems checking the natural-language specification against it.

Modelling conventions:
* A filesystem path is a list of directory components plus a final name
  (`FPath`).  The filesystem itself is modelled per claim as the list of
  paths that exist (`List FPath`), or as `List (FPath × Bool)` where
  file/directory distinction matters.
* `pathlib.Path.suffix` / `.stem` follow the CPython rule: the suffix is
  `name[i:]` for `i` the index of the last dot, provided `0 < i < len - 1`,
  else the empty string.
* `str.isalnum` is modelled by `pyIsAlnum`, a partial but faithful model of
  Unicode alphanumerity restricted to the character blocks exercised here:
  ASCII digits and letters, the Greek letter block, and the Cyrillic block.
* `os.rename` on files is platform-dependent and both semantics are
  modelled: on Windows it fails when the destination path exists (the
  semantics `move_file`'s docstring and the spec assume), while POSIX
  `rename(2)` silently replaces an existing destination file.  Claims
  touched by the difference are settled against both models.
* Unbounded `while` loops become fuel-indexed recursions; totality for the
  fuel actually supplied is proved, never assumed.
-/

/-- A filesystem path: the directory components leading to the entry, and
the entry's final name.  Mirrors how `pathlib.Path` is used in the source:
`.name`, `.parent`, `.with_name`, `.joinpath`. -/
structure FPath where
  dirs : List String
  name : String
  deriving DecidableEq, Repr

/-- `parent.joinpath(name)` for a directory `parent`. -/
def childPath (parent : FPath) (n : String) : FPath :=
  ⟨parent.dirs ++ [parent.name], n⟩

/-- `path.with_name(n)`: replace the final component, keep the parent. -/
def withName (p : FPath) (n : String) : FPath :=
  ⟨p.dirs, n⟩

/-- The full component list of a path (used to decide whether one path
lies below another). -/
def FPath.comps (p : FPath) : List String :=
  p.dirs ++ [p.name]

/-- The parent of a path, as an `FPath`, when it has one. -/
def pathParent (p : FPath) : Option FPath :=
  match p.dirs.getLast? with
  | none => none
  | some last => some ⟨p.dirs.dropLast, last⟩

/-! ## `pathlib` stem/suffix

CPython computes `Path.suffix` as: let `i = name.rfind('.')`; the suffix is
`name[i:]` if `0 < i < len(name) - 1`, else `''`; and `stem = name minus
suffix`.  Working on the reversed character list, the last dot of `name` is
the first dot of `reverse name`: `reverse name = a ++ '.' :: b` with `a`
dot-free; the suffix is nonempty exactly when both `a` (characters after
the dot) and `b` (characters before the dot) are nonempty. -/

/-- Split a name (as characters) into `(stem, suffix)` following the
CPython `pathlib` rule. -/
def pySplitName (name : List Char) : List Char × List Char :=
  match name.reverse.span (fun c => c ≠ '.') with
  | (_, []) => (name, [])
  | (a, _ :: b) =>
    if a.isEmpty || b.isEmpty then (name, [])
    else (b.reverse, '.' :: a.reverse)

/-- `pathlib.Path.suffix` on a name. -/
def pySuffix (name : List Char) : List Char := (pySplitName name).2

/-- `pathlib.Path.stem` on a name; also equals
`name.removesuffix(suffix)` because the suffix is a literal suffix. -/
def pyStem (name : List Char) : List Char := (pySplitName name).1

/-- String-level `pathlib.Path.suffix`. -/
def pySuffixStr (s : String) : String := ⟨pySuffix s.data⟩

/-- String-level `pathlib.Path.stem`. -/
def pyStemStr (s : String) : String := ⟨pyStem s.data⟩

/-! ## Decimal rendering of naturals (`str(idx)` in Python) -/

/-- The decimal digit characters. -/
def digitChar : Nat → Char
  | 0 => '0' | 1 => '1' | 2 => '2' | 3 => '3' | 4 => '4'
  | 5 => '5' | 6 => '6' | 7 => '7' | 8 => '8' | _ => '9'

/-- Digits of `n` in order, fuel-indexed so the definition is structural
(`fuel = n + 1` always suffices, see `digitsVal_natDigitsAux`). -/
def natDigitsAux : Nat → Nat → List Char
  | 0, _ => []
  | fuel + 1, n =>
    if n < 10 then [digitChar n]
    else natDigitsAux fuel (n / 10) ++ [digitChar (n % 10)]

/-- Decimal rendering of a natural number, as Python's `str`. -/
def natRepr (n : Nat) : String := ⟨natDigitsAux (n + 1) n⟩

/-- Value of a digit character. -/
def charVal (c : Char) : Nat := c.toNat - 48

/-- Read a digit list back into a number (used only to prove `natRepr`
injective). -/
def digitsVal (l : List Char) : Nat := l.foldl (fun a c => a * 10 + charVal c) 0

/-- A character is a decimal digit. -/
def isDigitCh (c : Char) : Bool := decide ('0' ≤ c) && decide (c ≤ '9')

theorem digitChar_lt_10 (n : Nat) (h : n < 10) : charVal (digitChar n) = n := by
  interval_cases n <;> decide

theorem digitsVal_append (l : List Char) (c : Char) (a : Nat) :
    (l ++ [c]).foldl (fun a c => a * 10 + charVal c) a
      = (l.foldl (fun a c => a * 10 + charVal c) a) * 10 + charVal c := by
  rw [List.foldl_append]
  rfl

theorem digitsVal_shift (l : List Char) (a : Nat) :
    l.foldl (fun a c => a * 10 + charVal c) a
      = a * 10 ^ l.length + digitsVal l := by
  induction l generalizing a with
  | nil => simp [digitsVal]
  | cons c t ih =>
    show t.foldl _ (a * 10 + charVal c) = _
    rw [ih (a * 10 + charVal c)]
    have h2 : digitsVal (c :: t) = (charVal c) * 10 ^ t.length + digitsVal t := by
      show t.foldl _ (0 * 10 + charVal c) = _
      rw [ih (0 * 10 + charVal c)]
      ring_nf
    rw [h2, List.length_cons, pow_succ]
    ring

theorem digitsVal_natDigitsAux (fuel n : Nat) (h : n < fuel) :
    digitsVal (natDigitsAux fuel n) = n := by
  induction fuel generalizing n with
  | zero => omega
  | succ f ih =>
    by_cases h10 : n < 10
    · simp [natDigitsAux, h10, digitsVal, digitChar_lt_10 n h10]
    · have hd : n / 10 < f := by omega
      simp only [natDigitsAux, h10, if_false]
      show (natDigitsAux f (n / 10) ++ [digitChar (n % 10)]).foldl _ 0 = n
      rw [digitsVal_append]
      have : (natDigitsAux f (n / 10)).foldl (fun a c => a * 10 + charVal c) 0
          = n / 10 := ih _ hd
      rw [this, digitChar_lt_10 _ (Nat.mod_lt n (by omega))]
      omega

theorem natRepr_injective : Function.Injective natRepr := by
  intro a b hab
  have : digitsVal (natDigitsAux (a + 1) a) = digitsVal (natDigitsAux (b + 1) b) := by
    have := congrArg String.data hab
    simpa [natRepr] using congrArg digitsVal this
  rwa [digitsVal_natDigitsAux _ _ (Nat.lt_succ_self a),
       digitsVal_natDigitsAux _ _ (Nat.lt_succ_self b)] at this

theorem natDigitsAux_digits (fuel n : Nat) :
    ∀ c ∈ natDigitsAux fuel n, isDigitCh c = true := by
  induction fuel generalizing n with
  | zero => intro c hc; simp [natDigitsAux] at hc
  | succ f ih =>
    intro c hc
    by_cases h10 : n < 10
    · simp only [natDigitsAux, h10, if_true, List.mem_singleton] at hc
      subst hc
      interval_cases n <;> decide
    · simp only [natDigitsAux, h10, if_false, List.mem_append, List.mem_singleton] at hc
      rcases hc with hc | hc
      · exact ih _ c hc
      · subst hc
        have : n % 10 < 10 := Nat.mod_lt n (by omega)
        interval_cases h : n % 10 <;> decide

theorem natDigitsAux_ne_nil (fuel n : Nat) (h : n < fuel) :
    natDigitsAux fuel n ≠ [] := by
  cases fuel with
  | zero => omega
  | succ f =>
    by_cases h10 : n < 10 <;> simp [natDigitsAux, h10]

/-! ## `class Normalize`

`CYRILLIC_SYMBOLS` and `TRANSLATION` are copied from the source.
`gen_trans_dict` zips them, inserting each lowercase letter with its
transliteration and its uppercase (`c.upper()`) with the uppercased
transliteration; Python keys the dict by `ord(c)` and looks it up with
`ord(char)`, which is equivalent to keying by the character itself. -/

/-- `Normalize.CYRILLIC_SYMBOLS`. -/
def CYRILLIC_SYMBOLS : List Char := "абвгдеёжзийклмнопрстуфхцчшщъыьэюяєіїґ".data

/-- `Normalize.TRANSLATION`. -/
def TRANSLATION : List String :=
  ["a", "b", "v", "g", "d", "e", "e", "j", "z", "i", "j", "k", "l", "m", "n",
   "o", "p", "r", "s", "t", "u", "f", "h", "ts", "ch", "sh", "sch", "", "y",
   "", "e", "yu", "ya", "je", "i", "ji", "g"]

/-- Python `str.upper()` restricted to one character of the Cyrillic block
(the only characters `gen_trans_dict` uppercases): the Unicode simple
uppercase mapping for а–я, ё and the Ukrainian letters є і ї ґ. -/
def cyrUpper (c : Char) : Char :=
  let n := c.toNat
  if 0x430 ≤ n ∧ n ≤ 0x44F then Char.ofNat (n - 0x20)
  else if 0x450 ≤ n ∧ n ≤ 0x45F then Char.ofNat (n - 0x50)
  else if n = 0x491 then Char.ofNat 0x490
  else c

/-- Python `str.upper()` on the ASCII translation strings. -/
def asciiUpper (s : String) : String :=
  ⟨s.data.map (fun c =>
    if 'a' ≤ c ∧ c ≤ 'z' then Char.ofNat (c.toNat - 32) else c)⟩

/-- Python `str.lower()` on ASCII strings (category folder names). -/
def asciiLower (s : String) : String :=
  ⟨s.data.map (fun c =>
    if 'A' ≤ c ∧ c ≤ 'Z' then Char.ofNat (c.toNat + 32) else c)⟩

/-- `Normalize.gen_trans_dict`: the transliteration dictionary as an
association list (all keys are distinct, so lookup order is irrelevant). -/
def TRANS_DICT : List (Char × String) :=
  (CYRILLIC_SYMBOLS.zip TRANSLATION).foldl
    (fun d p => d ++ [(p.1, p.2), (cyrUpper p.1, asciiUpper p.2)]) []

/-- Python `str.isalnum` on one character: a partial but faithful model of
Unicode alphanumerity, restricted to the blocks this development touches —
ASCII digits and letters, the Greek letter ranges U+0391–U+03A1 and
U+03A3–U+03C9, and the Cyrillic letter ranges U+0400–U+0481 and
U+048A–U+04FF (U+0482–U+0489 are signs/combining marks, for which Python
also answers false). -/
def pyIsAlnum (c : Char) : Bool :=
  let n := c.toNat
  (0x30 ≤ n && n ≤ 0x39) || (0x41 ≤ n && n ≤ 0x5A) || (0x61 ≤ n && n ≤ 0x7A) ||
  (0x391 ≤ n && n ≤ 0x3A1) || (0x3A3 ≤ n && n ≤ 0x3C9) ||
  (0x400 ≤ n && n ≤ 0x481) || (0x48A ≤ n && n ≤ 0x4FF)

/-- The per-character action of `Normalize.normalize`: an alphanumeric
character is replaced by `TRANS_DICT.get(ord(char), char)`, anything else
by `'_'`. -/
def normChar (c : Char) : List Char :=
  if pyIsAlnum c then
    match TRANS_DICT.lookup c with
    | some l => l.data
    | none => [c]
  else ['_']

/-- `Normalize.normalize`: concatenate the per-character substitutions in
order. -/
def Normalize.normalize (name : String) : String :=
  ⟨name.data.flatMap normChar⟩

/-! ## `CleanFolder` classification -/

/-- `CleanFolder.FORMATS_DICT`, in Python dict insertion order (category
name, recognized upper-case extensions). -/
def FORMATS_DICT : List (String × List String) :=
  [("images", ["JPEG", "PNG", "JPG", "SVG"]),
   ("video", ["AVI", "MP4", "MOV", "MKV"]),
   ("documents", ["DOC", "DOCX", "TXT", "PDF", "XLSX", "PPTX"]),
   ("audio", ["MP3", "OGG", "WAV", "M4A", "AMR"]),
   ("archives", ["ZIP", "GZ", "TAR"])]

/-- `CleanFolder.gen_formats_path_set`: the five destination paths
`root/<category>`.  The source stores them in a Python `set`; its
iteration order is immaterial below because category names are pairwise
distinct, so we keep `FORMATS_DICT` order. -/
def targetPathes (root : FPath) : List FPath :=
  FORMATS_DICT.map (fun kv => childPath root kv.1)

/-- `CleanFolder.get_target_folder`: find the category whose set contains
the upper-cased extension (first loop, `new_folder` stays `""` when none
matches), then return the destination path whose name matches it
case-insensitively (second loop); `None` when the extension is unknown. -/
def getTargetFolder (root : FPath) (extension : String) : Option FPath :=
  let ext := asciiUpper extension
  let newFolder := ((FORMATS_DICT.find? (fun kv => ext ∈ kv.2)).map Prod.fst).getD ""
  (targetPathes root).find? (fun p => asciiLower p.name = asciiLower newFolder)

/-- Python `str.removeprefix(".")` as used on `file_path.suffix`. -/
def removeDotPrefix (s : String) : String :=
  match s.data with
  | '.' :: rest => ⟨rest⟩
  | _ => s

/-- The extension `handle_file` derives from a file:
`file_path.suffix.removeprefix(".")`. -/
def extOf (p : FPath) : String := removeDotPrefix (pySuffixStr p.name)

/-- The file name `handle_file` computes:
`normalize(file_path.stem) + file_path.suffix`. -/
def newNameOf (p : FPath) : String :=
  Normalize.normalize (pyStemStr p.name) ++ pySuffixStr p.name

/-- The full move target `handle_file` computes for a *classified* file:
the category destination joined with the normalized name.  (For an
unclassified file the target folder is the file's own parent instead.) -/
def handleFileTarget (root : FPath) (p : FPath) : Option FPath :=
  (getTargetFolder root (extOf p)).map (fun d => childPath d (newNameOf p))

/-- Set insertion (`set.add`): the shared extension sets are modelled as
duplicate-free lists. -/
def insertStr (e : String) (l : List String) : List String :=
  if e ∈ l then l else e :: l

/-- The update `handle_file` performs, under the lock, on the pair
`(known_formats, unknown_formats)` for one file. -/
def handleFileSets (root : FPath) (st : List String × List String)
    (p : FPath) : List String × List String :=
  match getTargetFolder root (extOf p) with
  | some _ => (insertStr (extOf p) st.1, st.2)
  | none => (st.1, insertStr (extOf p) st.2)

/-! ## Structural lemmas about `pySplitName`

Every name decomposes by its *last* dot; the four cases below (no dot,
trailing dot, single leading dot, interior last dot) are exhaustive. -/

theorem span_all {p : Char → Bool} {l : List Char} (h : ∀ c ∈ l, p c) :
    l.span p = (l, []) := by
  rw [List.span_eq_take_drop]
  rw [List.takeWhile_eq_self_iff.mpr h, List.dropWhile_eq_nil_iff.mpr h]

theorem span_append_stop {p : Char → Bool} {l r : List Char} {y : Char}
    (h : ∀ c ∈ l, p c) (hy : p y = false) :
    (l ++ y :: r).span p = (l, y :: r) := by
  rw [List.span_eq_take_drop]
  rw [List.takeWhile_append_of_pos h, List.dropWhile_append_of_pos h]
  rw [List.takeWhile_cons_of_neg (by simp [hy]),
      List.dropWhile_cons_of_neg (by simp [hy])]
  simp

theorem dropWhile_head_false {p : Char → Bool} :
    ∀ (l : List Char) {y : Char} {b : List Char},
      l.dropWhile p = y :: b → p y = false := by
  intro l
  induction l with
  | nil => intro y b h; simp [List.dropWhile] at h
  | cons c t ih =>
    intro y b h
    by_cases hc : p c
    · rw [List.dropWhile_cons_of_pos hc] at h
      exact ih h
    · rw [List.dropWhile_cons_of_neg hc] at h
      cases h
      exact Bool.of_not_eq_true hc

/-- Case: the name contains no dot. -/
theorem pySplitName_no_dot {n : List Char} (h : ∀ c ∈ n, c ≠ '.') :
    pySplitName n = (n, []) := by
  unfold pySplitName
  rw [span_all (by intro c hc; simp [h c (List.mem_reverse.mp hc)])]

/-- Case: the name ends with a dot. -/
theorem pySplitName_trailing_dot {n : List Char} {b : List Char}
    (h : n.reverse = '.' :: b) :
    pySplitName n = (n, []) := by
  unfold pySplitName
  rw [h]
  have : ('.' :: b).span (fun c => decide (c ≠ '.')) = ([], '.' :: b) := by
    rw [List.span_eq_take_drop,
        List.takeWhile_cons_of_neg (by simp), List.dropWhile_cons_of_neg (by simp)]
  rw [this]
  simp

/-- Case: the only dot is the leading character (hidden-file style). -/
theorem pySplitName_leading_dot {u : List Char} (h : ∀ c ∈ u, c ≠ '.') :
    pySplitName ('.' :: u) = ('.' :: u, []) := by
  unfold pySplitName
  rw [show ('.' :: u).reverse = u.reverse ++ '.' :: [] by simp]
  rw [span_append_stop (by intro c hc; simp [h c (List.mem_reverse.mp hc)]) (by simp)]
  simp

/-- Case: the last dot is interior: `n = st ++ '.' :: t` with `t` nonempty
and dot-free and `st` nonempty.  This is the case with a real suffix. -/
theorem pySplitName_interior {st t : List Char}
    (hst : st ≠ []) (ht : t ≠ []) (htd : ∀ c ∈ t, c ≠ '.') :
    pySplitName (st ++ '.' :: t) = (st, '.' :: t) := by
  unfold pySplitName
  rw [show (st ++ '.' :: t).reverse = t.reverse ++ '.' :: st.reverse by simp]
  rw [span_append_stop (by intro c hc; simp [htd c (List.mem_reverse.mp hc)]) (by simp)]
  have h1 : t.reverse.isEmpty = false := by
    rw [List.isEmpty_eq_false]
    simpa using ht
  have h2 : st.reverse.isEmpty = false := by
    rw [List.isEmpty_eq_false]
    simpa using hst
  simp [h1, h2]

/-- Every name decomposes by its last dot into one of the four cases. -/
theorem lastDot_cases (n : List Char) :
    (∀ c ∈ n, c ≠ '.') ∨
    (∃ b, n.reverse = '.' :: b) ∨
    (∃ u, n = '.' :: u ∧ u ≠ [] ∧ ∀ c ∈ u, c ≠ '.') ∨
    (∃ st t, n = st ++ '.' :: t ∧ st ≠ [] ∧ t ≠ [] ∧ ∀ c ∈ t, c ≠ '.') := by
  rcases hsp : n.reverse.span (fun c => c ≠ '.') with ⟨a, r⟩
  rw [List.span_eq_take_drop] at hsp
  cases hsp
  rcases hr : n.reverse.dropWhile (fun c => decide (c ≠ '.')) with _ | ⟨y, b⟩
  · left
    intro c hc
    have := List.dropWhile_eq_nil_iff.mp hr c (by simpa using hc)
    simpa using this
  · have hy : y = '.' := by
      have := dropWhile_head_false _ hr
      simpa using this
    subst hy
    have hdec : n.reverse = n.reverse.takeWhile (fun c => decide (c ≠ '.')) ++ '.' :: b := by
      conv_lhs => rw [← List.takeWhile_append_dropWhile (fun c => decide (c ≠ '.')) n.reverse]
      rw [hr]
    have hatake : ∀ c ∈ n.reverse.takeWhile (fun c => decide (c ≠ '.')), c ≠ '.' := by
      intro c hc
      simpa using List.mem_takeWhile_imp hc
    set a := n.reverse.takeWhile (fun c => decide (c ≠ '.')) with ha
    have hn : n = b.reverse ++ '.' :: a.reverse := by
      have := congrArg List.reverse hdec
      simpa using this
    rcases hae : a with _ | ⟨z, v⟩
    · -- `a = []`: the name ends with a dot
      right; left
      refine ⟨b, ?_⟩
      rw [hdec, hae]
      rfl
    · rcases hbe : b.reverse with _ | ⟨x, u⟩
      · -- `b = []`: the dot is the leading character
        right; right; left
        have hb0 : b = [] := by simpa using congrArg List.reverse hbe
        refine ⟨a.reverse, by simpa [hb0] using hn, by simp [hae], ?_⟩
        intro c hc
        exact hatake c (List.mem_reverse.mp hc)
      · -- interior last dot
        right; right; right
        refine ⟨b.reverse, a.reverse, hn, by simp [hbe], by simp [hae], ?_⟩
        intro c hc
        exact hatake c (List.mem_reverse.mp hc)

/-- The stem and suffix concatenate back to the name. -/
theorem pyStem_append_pySuffix (n : List Char) : pyStem n ++ pySuffix n = n := by
  rcases lastDot_cases n with h | ⟨b, h⟩ | ⟨u, hu, _, hud⟩ | ⟨st, t, hn, hst, ht, htd⟩
  · simp [pyStem, pySuffix, pySplitName_no_dot h]
  · simp [pyStem, pySuffix, pySplitName_trailing_dot h]
  · subst hu; simp [pyStem, pySuffix, pySplitName_leading_dot hud]
  · subst hn; simp [pyStem, pySuffix, pySplitName_interior hst ht htd]

/-- The suffix is empty or starts with a dot. -/
theorem pySuffix_shape (n : List Char) :
    pySuffix n = [] ∨ ∃ t, pySuffix n = '.' :: t := by
  unfold pySuffix pySplitName
  rcases n.reverse.span (fun c => c ≠ '.') with ⟨a, r⟩
  · cases r with
    | nil => left; rfl
    | cons y b =>
      by_cases h : a.isEmpty || b.isEmpty
      · left; simp [h]
      · right; exact ⟨a.reverse, by simp [h]⟩

/-- A decimal digit is not a dot. -/
theorem digit_ne_dot {c : Char} (h : isDigitCh c = true) : c ≠ '.' := by
  intro hc
  subst hc
  simp [isDigitCh] at h

/-- Suffix stability: inserting a nonempty block of digits between the stem
and the suffix of a name that does not end in a dot leaves stem and suffix
of the new name at the same split point (the digits join the stem). -/
theorem pySplitName_stem_digits_suffix (n d : List Char)
    (hdd : ∀ c ∈ d, isDigitCh c = true)
    (hlast : n.getLast? ≠ some '.') :
    pySplitName (pyStem n ++ d ++ pySuffix n) = (pyStem n ++ d, pySuffix n) := by
  have hddot : ∀ c ∈ d, c ≠ '.' := fun c hc => digit_ne_dot (hdd c hc)
  rcases lastDot_cases n with h | ⟨b, h⟩ | ⟨u, hu, hune, hud⟩ | ⟨st, t, hn, hst, ht, htd⟩
  · rw [pyStem, pySuffix, pySplitName_no_dot h]
    simp only [List.append_nil]
    exact pySplitName_no_dot (by
      intro c hc
      rcases List.mem_append.mp hc with hc | hc
      · exact h c hc
      · exact hddot c hc)
  · exact absurd (by rw [List.getLast?_eq_head?_reverse, h]; rfl) hlast
  · subst hu
    rw [pyStem, pySuffix, pySplitName_leading_dot hud]
    simp only [List.append_nil, List.cons_append]
    exact pySplitName_leading_dot (by
      intro c hc
      rcases List.mem_append.mp hc with hc | hc
      · exact hud c hc
      · exact hddot c hc)
  · subst hn
    rw [pyStem, pySuffix, pySplitName_interior hst ht htd]
    rw [show st ++ d ++ '.' :: t = (st ++ d) ++ '.' :: t by simp]
    exact pySplitName_interior (by simp [hst]) ht htd

/-! ## `CleanFolder.gen_unique_name`

The source is an unbounded `while new_path.exists()` loop:

    start_name = path.name.removesuffix(path.suffix)   # = path.stem
    idx = 0
    while new_path.exists():
        idx += 1
        new_name = start_name + str(idx) + new_path.suffix
        new_path = new_path.with_name(new_name)
    return new_path

The embedding makes the fuel explicit; `genUniqueNameAux_total` proves
that `fs.length + 1` iterations always reach a free name, so
`genUniqueName` (which supplies exactly that fuel) is a faithful total
rendering of the loop. -/

/-- One-candidate-at-a-time loop of `gen_unique_name`.  `cur` is
`new_path`, `idx` the attempts made so far, `startName` the stem of the
original candidate.  Note the suffix appended is that of the *current*
candidate, exactly as in the source (`new_path.suffix`). -/
def genUniqueNameAux (fs : List FPath) (startName : List Char) :
    FPath → Nat → Nat → Option FPath
  | _, _, 0 => none
  | cur, idx, fuel + 1 =>
    if cur ∈ fs then
      genUniqueNameAux fs startName
        (withName cur ⟨startName ++ (natRepr (idx + 1)).data ++ pySuffix cur.name.data⟩)
        (idx + 1) fuel
    else some cur

/-- `CleanFolder.gen_unique_name` with the provably sufficient fuel
`fs.length + 1` (see `genUniqueNameAux_total`: the `getD` default is never
taken). -/
def genUniqueName (fs : List FPath) (p : FPath) : FPath :=
  (genUniqueNameAux fs (pyStem p.name.data) p 0 (fs.length + 1)).getD p

/-- The sequence of candidates the loop would enumerate. -/
def candSeq (startName : List Char) (p : FPath) : Nat → FPath
  | 0 => p
  | k + 1 =>
    withName (candSeq startName p k)
      ⟨startName ++ (natRepr (k + 1)).data ++ pySuffix (candSeq startName p k).name.data⟩

theorem candSeq_dirs (s : List Char) (p : FPath) (k : Nat) :
    (candSeq s p k).dirs = p.dirs := by
  induction k with
  | zero => rfl
  | succ k ih => simpa [candSeq, withName] using ih

theorem genUniqueNameAux_some (fs : List FPath) (s : List Char) :
    ∀ (fuel : Nat) (cur : FPath) (idx : Nat) (q : FPath),
      genUniqueNameAux fs s cur idx fuel = some q → q ∉ fs ∧ q.dirs = cur.dirs := by
  intro fuel
  induction fuel with
  | zero => intro cur idx q h; simp [genUniqueNameAux] at h
  | succ f ih =>
    intro cur idx q h
    by_cases hc : cur ∈ fs
    · simp only [genUniqueNameAux, hc, if_true] at h
      have := ih _ _ _ h
      exact ⟨this.1, by simpa [withName] using this.2⟩
    · simp only [genUniqueNameAux, hc, if_false, Option.some.injEq] at h
      exact ⟨h ▸ hc, by rw [h]⟩

theorem genUniqueNameAux_none (fs : List FPath) (s : List Char) (p : FPath) :
    ∀ (fuel k : Nat),
      genUniqueNameAux fs s (candSeq s p k) k fuel = none →
      ∀ m < fuel, candSeq s p (k + m) ∈ fs := by
  intro fuel
  induction fuel with
  | zero => intro k _ m hm; omega
  | succ f ih =>
    intro k h m hm
    by_cases hc : candSeq s p k ∈ fs
    · have hrec : genUniqueNameAux fs s (candSeq s p (k + 1)) (k + 1) f = none := by
        simpa [genUniqueNameAux, hc, candSeq] using h
      cases m with
      | zero => simpa using hc
      | succ m' =>
        have := ih (k + 1) hrec m' (by omega)
        simpa [Nat.add_comm, Nat.add_assoc, Nat.add_left_comm] using this
    · simp [genUniqueNameAux, hc] at h

theorem natRepr_data_digits (n : Nat) :
    ∀ c ∈ (natRepr n).data, isDigitCh c = true :=
  natDigitsAux_digits (n + 1) n

theorem natRepr_data_ne_nil (n : Nat) : (natRepr n).data ≠ [] :=
  natDigitsAux_ne_nil (n + 1) n (Nat.lt_succ_self n)

/-- The head of the list, if any, is not a decimal digit. -/
def headNotDigit (l : List Char) : Prop :=
  ∀ c t, l = c :: t → isDigitCh c = false

theorem headNotDigit_pySuffix (n : List Char) : headNotDigit (pySuffix n) := by
  rcases pySuffix_shape n with h | ⟨t, h⟩ <;> rw [h] <;> intro c u hcu
  · cases hcu
  · cases hcu; decide

/-- Cancellation through a digit block: two all-digit nonempty prefixes of
the same list, each followed by a non-digit-headed remainder, coincide. -/
theorem digits_cancel :
    ∀ (a b s t : List Char),
      (∀ c ∈ a, isDigitCh c = true) → (∀ c ∈ b, isDigitCh c = true) →
      headNotDigit s → headNotDigit t → a ≠ [] → b ≠ [] →
      a ++ s = b ++ t → a = b ∧ s = t := by
  intro a
  induction a with
  | nil => intro b s t _ _ _ _ ha _ _; exact absurd rfl ha
  | cons x a' ih =>
    intro b s t hda hdb hs ht _ hb heq
    cases b with
    | nil => exact absurd rfl hb
    | cons y b' =>
      have hxy : x = y := by simpa using congrArg (List.head? ·) heq
      subst hxy
      have heq' : a' ++ s = b' ++ t := by simpa using heq
      cases ha' : a' with
      | nil =>
        cases hb' : b' with
        | nil =>
          subst ha'; subst hb'
          simpa using heq'
        | cons z b'' =>
          subst ha'; subst hb'
          have hz : isDigitCh z = true := hdb z (by simp)
          have : isDigitCh z = false := hs z (b'' ++ t) (by simpa using heq')
          rw [hz] at this
          cases this
      | cons z a'' =>
        cases hb' : b' with
        | nil =>
          subst ha'; subst hb'
          have hz : isDigitCh z = true := hda z (by simp)
          have : isDigitCh z = false := ht z (a'' ++ s) (by simpa using heq'.symm)
          rw [hz] at this
          cases this
        | cons w b'' =>
          subst ha'; subst hb'
          have := ih (w :: b'') s t
            (fun c hc => hda c (by simp [hc]))
            (fun c hc => hdb c (by simp [hc]))
            hs ht (by simp) (by simp) heq'
          exact ⟨by rw [this.1], this.2⟩

/-- Shape of a candidate's name: the fixed stem, then (for `k ≥ 1`) a
digit block, then a non-digit-headed remainder. -/
theorem candSeq_name_shape (p : FPath) (k : Nat) :
    ∃ e, headNotDigit e ∧
      ((k = 0 ∧ (candSeq (pyStem p.name.data) p k).name.data = pyStem p.name.data ++ e) ∨
       (1 ≤ k ∧ (candSeq (pyStem p.name.data) p k).name.data
          = pyStem p.name.data ++ (natRepr k).data ++ e)) := by
  cases k with
  | zero =>
    refine ⟨pySuffix p.name.data, headNotDigit_pySuffix _, Or.inl ⟨rfl, ?_⟩⟩
    exact (pyStem_append_pySuffix p.name.data).symm
  | succ k =>
    refine ⟨pySuffix (candSeq (pyStem p.name.data) p k).name.data,
      headNotDigit_pySuffix _, Or.inr ⟨by omega, rfl⟩⟩

/-- Distinct loop indices give distinct candidates. -/
theorem candSeq_inj (p : FPath) {i j : Nat} (hij : i < j) :
    candSeq (pyStem p.name.data) p i ≠ candSeq (pyStem p.name.data) p j := by
  intro heq
  have hname : (candSeq (pyStem p.name.data) p i).name.data
      = (candSeq (pyStem p.name.data) p j).name.data := by rw [heq]
  rcases candSeq_name_shape p i with ⟨e, he, hi⟩
  rcases candSeq_name_shape p j with ⟨f, hf, hj⟩
  have hj1 : 1 ≤ j := by omega
  rcases hj with ⟨hj0, _⟩ | ⟨_, hjd⟩
  · omega
  rcases hi with ⟨hi0, hid⟩ | ⟨hi1, hid⟩
  · -- `i = 0`: the remainder of the original name would have to start
    -- with a digit
    rw [hid, hjd, List.append_assoc, List.append_right_inj] at hname
    rcases hcons : (natRepr j).data with _ | ⟨c, rest⟩
    · exact natRepr_data_ne_nil j hcons
    · have hdig : isDigitCh c = true := natRepr_data_digits j c (by simp [hcons])
      have : isDigitCh c = false := he c (rest ++ f) (by rw [hname, hcons]; simp)
      rw [hdig] at this
      cases this
  · -- both `≥ 1`: cancel the stem, then the digit blocks coincide
    rw [hid, hjd, List.append_assoc, List.append_assoc, List.append_right_inj] at hname
    have := digits_cancel _ _ _ _ (natRepr_data_digits i) (natRepr_data_digits j)
      he hf (natRepr_data_ne_nil i) (natRepr_data_ne_nil j) hname
    have hrepr : natRepr i = natRepr j := String.ext this.1
    have := natRepr_injective hrepr
    omega

/-- Termination of `gen_unique_name`: within `fs.length + 1` iterations a
free candidate is found (pigeonhole over the pairwise-distinct
candidates). -/
theorem genUniqueNameAux_total (fs : List FPath) (p : FPath) :
    genUniqueNameAux fs (pyStem p.name.data) p 0 (fs.length + 1) ≠ none := by
  intro hnone
  have hmem : ∀ m < fs.length + 1, candSeq (pyStem p.name.data) p m ∈ fs := by
    have := genUniqueNameAux_none fs (pyStem p.name.data) p (fs.length + 1) 0 hnone
    simpa using this
  have hnodup : ((List.range (fs.length + 1)).map (candSeq (pyStem p.name.data) p)).Nodup := by
    refine (List.nodup_range _).map_on ?_
    intro x _ y _ hxy
    by_contra hne
    rcases Nat.lt_or_ge x y with h | h
    · exact candSeq_inj p h hxy
    · exact candSeq_inj p (by omega) hxy.symm
  have hsub : ((List.range (fs.length + 1)).map (candSeq (pyStem p.name.data) p)) ⊆ fs := by
    intro q hq
    rcases List.mem_map.mp hq with ⟨m, hm, rfl⟩
    exact hmem m (List.mem_range.mp hm)
  have hle := (List.subperm_of_subset hnodup hsub).length_le
  simp at hle

/-- The name `gen_unique_name` returns never exists in the filesystem. -/
theorem genUniqueName_not_mem (fs : List FPath) (p : FPath) :
    genUniqueName fs p ∉ fs := by
  unfold genUniqueName
  rcases h : genUniqueNameAux fs (pyStem p.name.data) p 0 (fs.length + 1) with _ | q
  · exact absurd h (genUniqueNameAux_total fs p)
  · simpa using (genUniqueNameAux_some fs _ _ _ _ _ h).1

/-- `gen_unique_name` keeps the candidate in its folder
(`with_name` never changes the parent). -/
theorem genUniqueName_dirs (fs : List FPath) (p : FPath) :
    (genUniqueName fs p).dirs = p.dirs := by
  unfold genUniqueName
  rcases h : genUniqueNameAux fs (pyStem p.name.data) p 0 (fs.length + 1) with _ | q
  · rfl
  · simpa using (genUniqueNameAux_some fs _ _ _ _ _ h).2

/-- When the loop returns, it returns the first free candidate and all
earlier candidates were occupied. -/
theorem genUniqueNameAux_first (fs : List FPath) (s : List Char) (p : FPath) :
    ∀ (fuel k : Nat) (q : FPath),
      genUniqueNameAux fs s (candSeq s p k) k fuel = some q →
      ∃ m, m < fuel ∧ q = candSeq s p (k + m) ∧
        ∀ i < m, candSeq s p (k + i) ∈ fs := by
  intro fuel
  induction fuel with
  | zero => intro k q h; simp [genUniqueNameAux] at h
  | succ f ih =>
    intro k q h
    by_cases hc : candSeq s p k ∈ fs
    · have hrec : genUniqueNameAux fs s (candSeq s p (k + 1)) (k + 1) f = some q := by
        simpa [genUniqueNameAux, hc, candSeq] using h
      rcases ih (k + 1) q hrec with ⟨m, hm, hq, hall⟩
      refine ⟨m + 1, by omega, by rw [hq]; ring_nf, ?_⟩
      intro i hi
      cases i with
      | zero => simpa using hc
      | succ i' =>
        have := hall i' (by omega)
        simpa [Nat.add_comm, Nat.add_assoc, Nat.add_left_comm] using this
    · have : q = candSeq s p k := by
        simpa [genUniqueNameAux, hc] using h.symm
      exact ⟨0, by omega, by simpa using this, by omega⟩

/-- With the original name not ending in a dot, every candidate from the
first retry on is the stem, the attempt index, then the *original*
extension. -/
theorem candSeq_name_stable (p : FPath)
    (hlast : p.name.data.getLast? ≠ some '.') (k : Nat) :
    (candSeq (pyStem p.name.data) p (k + 1)).name.data
      = pyStem p.name.data ++ (natRepr (k + 1)).data ++ pySuffix p.name.data := by
  induction k with
  | zero => rfl
  | succ k ih =>
    show pyStem p.name.data ++ (natRepr (k + 2)).data
        ++ pySuffix (candSeq (pyStem p.name.data) p (k + 1)).name.data = _
    rw [ih]
    have hsplit := pySplitName_stem_digits_suffix p.name.data (natRepr (k + 1)).data
      (natRepr_data_digits (k + 1)) hlast
    simp only [pySuffix] at hsplit ⊢
    rw [hsplit]

/-- For `j ≥ 1`, the `j`-th candidate is the original path with its name
replaced by stem + index + original extension (when the original name does
not end in a dot). -/
theorem candSeq_eq_withName (p : FPath)
    (hlast : p.name.data.getLast? ≠ some '.') {j : Nat} (hj : 1 ≤ j) :
    candSeq (pyStem p.name.data) p j
      = withName p ⟨pyStem p.name.data ++ (natRepr j).data ++ pySuffix p.name.data⟩ := by
  cases j with
  | zero => omega
  | succ j' =>
    have h1 := candSeq_dirs (pyStem p.name.data) p (j' + 1)
    have h2 := candSeq_name_stable p hlast j'
    cases hq : candSeq (pyStem p.name.data) p (j' + 1) with
    | mk d nm =>
      rw [hq] at h1 h2
      simp only [withName, FPath.mk.injEq]
      exact ⟨h1, String.ext h2⟩

/-- C4 (amended).  `gen_unique_name` always returns a path that does not
exist in the filesystem and stays in the candidate's folder; a second call
after the first result is created returns a different path.  When the
original name does not end in a dot, the returned name follows the claimed
pattern: either the candidate itself was free, or the result is
`stem + k + original-extension` for some attempt index `k ≥ 1` such that
the original candidate and every earlier patterned candidate
(`stem + j + extension`, `1 ≤ j < k`) exist.  (For a name ending in a dot
the pattern part fails — see the counterexample — because the loop
re-reads the suffix from the *current* candidate.) -/
theorem c4_gen_unique_name (fs : List FPath) (p : FPath)
    (hlast : p.name.data.getLast? ≠ some '.') :
    genUniqueName fs p ∉ fs ∧
    (genUniqueName fs p).dirs = p.dirs ∧
    genUniqueName (genUniqueName fs p :: fs) p ≠ genUniqueName fs p ∧
    (genUniqueName fs p = p ∨
      (p ∈ fs ∧ ∃ k, 1 ≤ k ∧
        (genUniqueName fs p).name.data
          = pyStem p.name.data ++ (natRepr k).data ++ pySuffix p.name.data ∧
        ∀ j, 1 ≤ j → j < k →
          withName p ⟨pyStem p.name.data ++ (natRepr j).data
            ++ pySuffix p.name.data⟩ ∈ fs)) := by
  refine ⟨genUniqueName_not_mem fs p, genUniqueName_dirs fs p, ?_, ?_⟩
  · intro h
    have := genUniqueName_not_mem (genUniqueName fs p :: fs) p
    rw [h] at this
    exact this (by simp)
  · rcases h : genUniqueNameAux fs (pyStem p.name.data) p 0 (fs.length + 1) with _ | q
    · exact absurd h (genUniqueNameAux_total fs p)
    · have hfirst := genUniqueNameAux_first fs (pyStem p.name.data) p
        (fs.length + 1) 0 q h
      rcases hfirst with ⟨m, _, hq, hall⟩
      have hgen : genUniqueName fs p = q := by
        unfold genUniqueName
        rw [h]
        rfl
      cases m with
      | zero =>
        left
        rw [hgen, hq]
        rfl
      | succ m' =>
        right
        refine ⟨by simpa using hall 0 (by omega), m' + 1, by omega, ?_, ?_⟩
        · rw [hgen, hq]
          simpa using candSeq_name_stable p hlast m'
        · intro j hj1 hjm
          have := hall j (by omega)
          rw [Nat.zero_add] at this
          rwa [candSeq_eq_withName p hlast hj1] at this

/-! ## Claim C4: `gen_unique_name` -/

/-- C4, counterexample to the claim as stated.  With `foo.` and `foo.1`
existing, the claimed pattern would return `foo.2` (stem `foo.`, index 2,
original extension empty — which is free), but `gen_unique_name` re-reads
the suffix from the current candidate `foo.1` and returns `foo.2.1`. -/
theorem c4_pattern_counterexample :
    genUniqueName [⟨[], "foo."⟩, ⟨[], "foo.1"⟩] ⟨[], "foo."⟩ = ⟨[], "foo.2.1"⟩ ∧
    pyStemStr "foo." = "foo." ∧ pySuffixStr "foo." = "" ∧
    (⟨[], "foo.2.1"⟩ : FPath) ≠ ⟨[], "foo.2"⟩ ∧
    (⟨[], "foo.2"⟩ : FPath) ∉ [(⟨[], "foo."⟩ : FPath), ⟨[], "foo.1"⟩] :=
  ⟨by decide, by decide, by decide, by decide, by decide⟩

/-- C4, witness: the amended theorem applied at a concrete input. -/
theorem c4_witness :
    genUniqueName [⟨[], "a.txt"⟩] ⟨[], "a.txt"⟩ ∉ [(⟨[], "a.txt"⟩ : FPath)] ∧
    (genUniqueName [⟨[], "a.txt"⟩] ⟨[], "a.txt"⟩).dirs
      = (⟨[], "a.txt"⟩ : FPath).dirs ∧
    genUniqueName (genUniqueName [⟨[], "a.txt"⟩] ⟨[], "a.txt"⟩
        :: [⟨[], "a.txt"⟩]) ⟨[], "a.txt"⟩
      ≠ genUniqueName [⟨[], "a.txt"⟩] ⟨[], "a.txt"⟩ ∧
    (genUniqueName [⟨[], "a.txt"⟩] ⟨[], "a.txt"⟩ = ⟨[], "a.txt"⟩ ∨
      ((⟨[], "a.txt"⟩ : FPath) ∈ [(⟨[], "a.txt"⟩ : FPath)] ∧ ∃ k, 1 ≤ k ∧
        (genUniqueName [⟨[], "a.txt"⟩] ⟨[], "a.txt"⟩).name.data
          = pyStem (FPath.mk [] "a.txt").name.data ++ (natRepr k).data
            ++ pySuffix (FPath.mk [] "a.txt").name.data ∧
        ∀ j, 1 ≤ j → j < k →
          withName ⟨[], "a.txt"⟩ ⟨pyStem (FPath.mk [] "a.txt").name.data
              ++ (natRepr j).data ++ pySuffix (FPath.mk [] "a.txt").name.data⟩
            ∈ [(⟨[], "a.txt"⟩ : FPath)])) :=
  c4_gen_unique_name [⟨[], "a.txt"⟩] ⟨[], "a.txt"⟩ (by decide)

/-! ## Claims C3 and C10: `normalize` -/

/-- A character allowed by the spec's `[A-Za-z0-9_]` contract. -/
def isAsciiWordChar (c : Char) : Bool :=
  c = '_' || ('0' ≤ c && c ≤ '9') || ('A' ≤ c && c ≤ 'Z') || ('a' ≤ c && c ≤ 'z')

/-- Every transliteration value in the table consists of ASCII letters. -/
theorem trans_dict_values_ascii :
    ∀ p ∈ TRANS_DICT, ∀ c ∈ p.2.data, isAsciiWordChar c = true := by
  decide

/-- C3, counterexample to the claim as stated: `'α'` (Greek) is
alphanumeric for Python, is not in the transliteration table, and passes
through `normalize` unchanged, so the output is not restricted to
`[A-Za-z0-9_]`. -/
theorem c3_counterexample :
    Normalize.normalize "α" = "α" ∧
    'α' ∈ (Normalize.normalize "α").data ∧
    isAsciiWordChar 'α' = false :=
  ⟨by decide, by decide, by decide⟩

/-- C3 (amended): every character of `normalize`'s output is in
`[A-Za-z0-9_]` *or* is an alphanumeric character of the input that is not
in the transliteration table and passed through unchanged.  (Cyrillic
table characters are transliterated to ASCII letters; non-alphanumerics
become `'_'`.) -/
theorem c3_normalize_chars (s : String) :
    ∀ c ∈ (Normalize.normalize s).data,
      isAsciiWordChar c = true ∨
      (pyIsAlnum c = true ∧ TRANS_DICT.lookup c = none ∧ c ∈ s.data) := by
  intro c hc
  have hc' : c ∈ s.data.flatMap normChar := hc
  rcases List.mem_flatMap.mp hc' with ⟨a, ha, hca⟩
  unfold normChar at hca
  by_cases halnum : pyIsAlnum a
  · rw [if_pos halnum] at hca
    rcases hlk : TRANS_DICT.lookup a with _ | l
    · rw [hlk] at hca
      have : c = a := by simpa using hca
      subst this
      exact Or.inr ⟨halnum, hlk, ha⟩
    · rw [hlk] at hca
      left
      rcases List.lookup_eq_some_iff.mp hlk with ⟨l₁, l₂, hdec, _⟩
      exact trans_dict_values_ascii (a, l) (by rw [hdec]; simp) c hca
  · rw [if_neg halnum] at hca
    have : c = '_' := by simpa using hca
    subst this
    left
    decide

/-- C3, witness: the amended theorem applied at a concrete input. -/
theorem c3_witness :
    isAsciiWordChar 'b' = true ∨
    (pyIsAlnum 'b' = true ∧ TRANS_DICT.lookup 'b' = none ∧ 'b' ∈ ("б" : String).data) :=
  c3_normalize_chars "б" 'b' (by decide)

/-- C10: there are non-empty names that normalize to the empty string —
the hard and soft signs map to `""` — so the computed rename target of a
file like `ъ.txt` is the bare suffix `.txt`. -/
theorem c10_normalize_empty :
    Normalize.normalize "ъь" = "" ∧ ("ъь" : String) ≠ "" ∧
    TRANS_DICT.lookup 'ъ' = some "" ∧ TRANS_DICT.lookup 'ь' = some "" ∧
    newNameOf ⟨[], "ъ.txt"⟩ = ".txt" :=
  ⟨by decide, by decide, by decide, by decide, by decide⟩

/-! ## `CleanFolder.move_file`

    while True:
        try:
            old_path.rename(new_path)
            break
        except:
            new_path = self.gen_unique_name(new_path)

The `except:` clause is bare: *every* exception — destination-exists
collision or not — is swallowed and the loop retries with a fresh
candidate from `gen_unique_name`.  The loop has no error exit at all; its
only outcomes are success or running forever.  The rename operation is
abstracted into an oracle so that both collision failures and
non-collision failures (permissions, cross-device, …) can be modelled. -/

/-- Outcome of one `os.rename` attempt. -/
inductive RenameResult where
  | ok (fs : List FPath)
  | errExists
  | errOther
  deriving DecidableEq, Repr

/-- The `move_file` loop.  Both failure branches retry — that is the bare
`except:`.  `none` means the fuel ran out with the loop still running. -/
def moveFileExc (rename : FPath → FPath → List FPath → RenameResult)
    (fs : List FPath) : FPath → FPath → Nat → Option (List FPath × FPath)
  | _, _, 0 => none
  | old, new, fuel + 1 =>
    match rename old new fs with
    | .ok fs' => some (fs', new)
    | .errExists => moveFileExc rename fs old (genUniqueName fs new) fuel
    | .errOther => moveFileExc rename fs old (genUniqueName fs new) fuel

/-- Rename of a plain file on Windows: `os.rename` fails when the
destination exists, otherwise the source path disappears and the
destination path appears.  (A file has no descendants, so only the entry
itself moves.)  These are also the semantics `move_file`'s docstring and
spec §4.4 assume. -/
def renameFileOpWindows (old new : FPath) (fs : List FPath) : RenameResult :=
  if new ∈ fs then .errExists else .ok ((fs.erase old).concat new)

/-- Rename of a plain file on POSIX: `rename(2)` succeeds even when the
destination exists, *silently replacing* the file there — no exception is
raised.  The entry previously at `new` is clobbered, the entry at `old`
now sits at `new`.  (Failure modes such as cross-device or permissions
are covered by the abstract oracle in the C2 theorem.) -/
def renameFileOpPosix (old new : FPath) (fs : List FPath) : RenameResult :=
  .ok (((fs.erase old).erase new).concat new)

/-- `move_file` on plain files under Windows rename semantics. -/
def moveFileWindows (fs : List FPath) (old new : FPath) (fuel : Nat) :
    Option (List FPath × FPath) :=
  moveFileExc renameFileOpWindows fs old new fuel

/-- `move_file` on plain files under POSIX rename semantics. -/
def moveFilePosix (fs : List FPath) (old new : FPath) (fuel : Nat) :
    Option (List FPath × FPath) :=
  moveFileExc renameFileOpPosix fs old new fuel

/-- With the fail-iff-exists rename, two iterations always suffice: either
the destination is free, or the single `gen_unique_name` retry is free. -/
theorem moveFileWindows_eq (fs : List FPath) (old new : FPath) :
    (new ∉ fs ∧ moveFileWindows fs old new 2 = some ((fs.erase old).concat new, new)) ∨
    (new ∈ fs ∧ genUniqueName fs new ∉ fs ∧
      moveFileWindows fs old new 2
        = some ((fs.erase old).concat (genUniqueName fs new), genUniqueName fs new)) := by
  by_cases h : new ∈ fs
  · right
    refine ⟨h, genUniqueName_not_mem fs new, ?_⟩
    have hg := genUniqueName_not_mem fs new
    simp [moveFileWindows, moveFileExc, renameFileOpWindows, h, hg]
  · left
    exact ⟨h, by simp [moveFileWindows, moveFileExc, renameFileOpWindows, h]⟩

/-! ## Claim C1: colliding destinations and silent overwrite -/

/-- C1, counterexample to the claim as stated.  On POSIX, `os.rename`
silently replaces an existing destination file: moving `a-b.jpg` and then
`a_b.jpg` — distinct sources whose `handle_file` computations agree on
the destination `root/images/a_b.jpg` — both renames succeed on the very
first iteration (fuel 1), no exception is ever raised, the bare `except:`
and `gen_unique_name` are never reached, and the filesystem ends with a
*single* entry: the second move destroyed the first file.  The claim's
"both files exist under that destination with distinct filenames" is
false there. -/
theorem c1_posix_counterexample :
    handleFileTarget ⟨[], "root"⟩ ⟨["root"], "a-b.jpg"⟩
      = some ⟨["root", "images"], "a_b.jpg"⟩ ∧
    handleFileTarget ⟨[], "root"⟩ ⟨["root", "sub"], "a_b.jpg"⟩
      = some ⟨["root", "images"], "a_b.jpg"⟩ ∧
    moveFilePosix [⟨["root"], "a-b.jpg"⟩, ⟨["root", "sub"], "a_b.jpg"⟩]
        ⟨["root"], "a-b.jpg"⟩ ⟨["root", "images"], "a_b.jpg"⟩ 1
      = some ([⟨["root", "sub"], "a_b.jpg"⟩, ⟨["root", "images"], "a_b.jpg"⟩],
          ⟨["root", "images"], "a_b.jpg"⟩) ∧
    (⟨["root", "images"], "a_b.jpg"⟩ : FPath)
      ∈ [(⟨["root", "sub"], "a_b.jpg"⟩ : FPath), ⟨["root", "images"], "a_b.jpg"⟩] ∧
    moveFilePosix [⟨["root", "sub"], "a_b.jpg"⟩, ⟨["root", "images"], "a_b.jpg"⟩]
        ⟨["root", "sub"], "a_b.jpg"⟩ ⟨["root", "images"], "a_b.jpg"⟩ 1
      = some ([⟨["root", "images"], "a_b.jpg"⟩], ⟨["root", "images"], "a_b.jpg"⟩) ∧
    ([(⟨["root", "images"], "a_b.jpg"⟩ : FPath)]).length = 1 :=
  ⟨by decide, by decide, by decide, by decide, by decide, by decide⟩

/-- C1 (amended).  The no-silent-overwrite guarantee is
platform-dependent.  Under Windows rename semantics — the semantics
`move_file`'s docstring and the spec assume, where a rename onto an
existing destination raises — two distinct source files whose
`handle_file` computations agree on the same classified destination path
`t` both survive when their dispatched moves run: after moving `p1` and
then `p2`, the first file sits at `t`, the second at a path `u ≠ t` in
the same destination folder, the collision resolved by the unique-name
retry.  (Under POSIX rename semantics the retry never fires and the
second move silently replaces the first — see the counterexample.) -/
theorem c1_no_silent_overwrite (root : FPath) (fs : List FPath)
    (p1 p2 t : FPath)
    (h1 : handleFileTarget root p1 = some t)
    (h2 : handleFileTarget root p2 = some t)
    (hne : p1 ≠ p2) (hp1 : p1 ∈ fs) (hp2 : p2 ∈ fs) (ht : t ∉ fs) :
    ∃ fs1 fs2 u,
      moveFileWindows fs p1 t 2 = some (fs1, t) ∧
      moveFileWindows fs1 p2 t 2 = some (fs2, u) ∧
      u ≠ t ∧ t ∈ fs2 ∧ u ∈ fs2 ∧ u.dirs = t.dirs := by
  have hmv1 : moveFileWindows fs p1 t 2 = some ((fs.erase p1).concat t, t) := by
    rcases moveFileWindows_eq fs p1 t with ⟨_, h⟩ | ⟨habs, _⟩
    · exact h
    · exact absurd habs ht
  set fs1 : List FPath := (fs.erase p1).concat t with hfs1
  have htfs1 : t ∈ fs1 := by simp [hfs1]
  set u : FPath := genUniqueName fs1 t with hu
  have hufs1 : u ∉ fs1 := genUniqueName_not_mem fs1 t
  have hmv2 : moveFileWindows fs1 p2 t 2 = some ((fs1.erase p2).concat u, u) := by
    rcases moveFileWindows_eq fs1 p2 t with ⟨habs, _⟩ | ⟨_, _, h⟩
    · exact absurd htfs1 habs
    · exact h
  refine ⟨fs1, (fs1.erase p2).concat u, u, hmv1, hmv2, ?_, ?_, by simp, genUniqueName_dirs fs1 t⟩
  · intro h
    rw [h] at hufs1
    exact hufs1 htfs1
  · have htp2 : t ≠ p2 := fun h => ht (h ▸ hp2)
    have : t ∈ fs1.erase p2 := List.mem_erase_of_ne htp2 |>.mpr htfs1
    simp [this]

/-- C1, witness: two files in different folders, `a-b.jpg` and `a_b.jpg`,
normalize to the same destination name under `images`. -/
theorem c1_witness :
    ∃ fs1 fs2 u,
      moveFileWindows [⟨["root"], "a-b.jpg"⟩, ⟨["root", "sub"], "a_b.jpg"⟩]
        ⟨["root"], "a-b.jpg"⟩ ⟨["root", "images"], "a_b.jpg"⟩ 2
          = some (fs1, ⟨["root", "images"], "a_b.jpg"⟩) ∧
      moveFileWindows fs1 ⟨["root", "sub"], "a_b.jpg"⟩
        ⟨["root", "images"], "a_b.jpg"⟩ 2 = some (fs2, u) ∧
      u ≠ ⟨["root", "images"], "a_b.jpg"⟩ ∧
      (⟨["root", "images"], "a_b.jpg"⟩ : FPath) ∈ fs2 ∧ u ∈ fs2 ∧
      u.dirs = (⟨["root", "images"], "a_b.jpg"⟩ : FPath).dirs :=
  c1_no_silent_overwrite ⟨[], "root"⟩
    [⟨["root"], "a-b.jpg"⟩, ⟨["root", "sub"], "a_b.jpg"⟩]
    ⟨["root"], "a-b.jpg"⟩ ⟨["root", "sub"], "a_b.jpg"⟩ ⟨["root", "images"], "a_b.jpg"⟩
    (by decide) (by decide) (by decide) (by decide) (by decide) (by decide)

/-! ## Claim C2: non-collision rename errors -/

/-- C2 (code bug).  The claim — and the spec — say a rename failure other
than destination-exists is fatal for the file and is propagated.  The bare
`except:` in `move_file` contradicts this: under a persistent
non-collision error (e.g. cross-device link or permission denied, with
the destination free) the loop swallows the exception, `gen_unique_name`
returns the very same free candidate, and the loop spins forever — it
neither succeeds nor propagates, for any number of iterations. -/
theorem c2_bare_except_swallows (old new : FPath) :
    genUniqueName [] new = new ∧
    ∀ fuel, moveFileExc (fun _ _ _ => RenameResult.errOther) [] old new fuel = none := by
  constructor
  · simp [genUniqueName, genUniqueNameAux]
  · intro fuel
    induction fuel generalizing new with
    | zero => rfl
    | succ f ih => simpa [moveFileExc] using ih (genUniqueName [] new)

/-! ## `CleanFolder.handle_folders`

    while folders:
        folder_path = folders.pop()
        if not folder_path.exists():
            continue
        new_name = self.normalizer.normalize(folder_path.stem)
        if not any(folder_path.iterdir()):
            try:
                folder_path.rmdir()
            except OSError:
                print(...)
        elif new_name != folder_path.name:
            target_path = folder_path.parent.joinpath(new_name)
            self.move_file(folder_path, target_path)

Note `normalize` is applied to the folder's *stem* (`folder_path.stem`),
not its full name, and the result is compared against the full name. -/

/-- The direct children of a directory within the filesystem. -/
def childrenOf (p : FPath) (fs : List FPath) : List FPath :=
  fs.filter (fun q => q.dirs = p.dirs ++ [p.name])

/-- Renaming a directory re-roots the entry itself and every descendant
under the new path. -/
def reroot (old new q : FPath) : FPath :=
  if q = old then new
  else if old.comps.isPrefixOf q.dirs then
    ⟨new.comps ++ q.dirs.drop old.comps.length, q.name⟩
  else q

/-- Rename of a directory under the fail-iff-destination-exists model. -/
def renameDirOp (old new : FPath) (fs : List FPath) : RenameResult :=
  if new ∈ fs then .errExists else .ok (fs.map (reroot old new))

/-- `move_file` applied to a directory (as `handle_folders` does). -/
def moveDir (fs : List FPath) (old new : FPath) (fuel : Nat) :
    Option (List FPath × FPath) :=
  moveFileExc renameDirOp fs old new fuel

/-- Directory moves also finish within two iterations. -/
theorem moveDir_eq (fs : List FPath) (old new : FPath) :
    (new ∉ fs ∧ moveDir fs old new 2 = some (fs.map (reroot old new), new)) ∨
    (new ∈ fs ∧ genUniqueName fs new ∉ fs ∧
      moveDir fs old new 2
        = some (fs.map (reroot old (genUniqueName fs new)), genUniqueName fs new)) := by
  by_cases h : new ∈ fs
  · right
    refine ⟨h, genUniqueName_not_mem fs new, ?_⟩
    have hg := genUniqueName_not_mem fs new
    simp [moveDir, moveFileExc, renameDirOp, h, hg]
  · left
    exact ⟨h, by simp [moveDir, moveFileExc, renameDirOp, h]⟩

/-- One iteration of the `handle_folders` loop for the popped folder `p`.
`folder_path.parent.joinpath(new_name)` is the folder's own parent with
the new name, i.e. `withName p new_name`.  `rmdir` is modelled as
succeeding; the `except OSError` branch only logs and concerns
filesystem races outside this model. -/
def handleFolderStep (fs : List FPath) (p : FPath) : List FPath :=
  if p ∈ fs then
    if childrenOf p fs = [] then fs.erase p
    else if Normalize.normalize (pyStemStr p.name) ≠ p.name then
      ((moveDir fs p (withName p (Normalize.normalize (pyStemStr p.name))) 2).map
        Prod.fst).getD fs
    else fs
  else fs

/-- `handle_folders`: pop folders from the end of the registry until it is
empty. -/
def handleFolders (fs : List FPath) (folders : List FPath) : List FPath :=
  folders.reverse.foldl handleFolderStep fs

/-- C7 (amended).  A still-existing, non-empty folder whose *stem*
normalizes to something different from its full name is renamed in place
(same parent) to the normalized stem — not to the normalized full name —
with collisions resolved by the same move-with-retry logic as for files;
a folder whose name equals its normalized stem is left unchanged. -/
theorem c7_handle_folders (fs : List FPath) (p : FPath)
    (hp : p ∈ fs) (hnonempty : childrenOf p fs ≠ []) :
    (Normalize.normalize (pyStemStr p.name) = p.name → handleFolderStep fs p = fs) ∧
    (Normalize.normalize (pyStemStr p.name) ≠ p.name →
      ∃ r, handleFolderStep fs p = fs.map (reroot p r) ∧
        r.dirs = p.dirs ∧
        (r = withName p (Normalize.normalize (pyStemStr p.name)) ∨
          (withName p (Normalize.normalize (pyStemStr p.name)) ∈ fs ∧ r ∉ fs))) := by
  constructor
  · intro heq
    simp [handleFolderStep, hp, hnonempty, heq]
  · intro hne
    rcases moveDir_eq fs p (withName p (Normalize.normalize (pyStemStr p.name)))
      with ⟨hnm, hmv⟩ | ⟨hm, hg, hmv⟩
    · refine ⟨withName p (Normalize.normalize (pyStemStr p.name)),
        ?_, rfl, Or.inl rfl⟩
      simp [handleFolderStep, hp, hnonempty, hne, hmv]
    · refine ⟨genUniqueName fs (withName p (Normalize.normalize (pyStemStr p.name))),
        ?_, ?_, Or.inr ⟨hm, hg⟩⟩
      · simp [handleFolderStep, hp, hnonempty, hne, hmv]
      · exact genUniqueName_dirs fs _

/-- C7, counterexample to the claim as stated: the non-empty folder
`my.folder` is renamed to `my` (the normalized *stem*), not to
`my_folder` (the normalized *name* the claim announces). -/
theorem c7_counterexample :
    Normalize.normalize "my.folder" = "my_folder" ∧
    handleFolderStep [⟨[], "my.folder"⟩, ⟨["my.folder"], "x"⟩] ⟨[], "my.folder"⟩
      = [⟨[], "my"⟩, ⟨["my"], "x"⟩] ∧
    (⟨[], "my_folder"⟩ : FPath) ∉ [(⟨[], "my"⟩ : FPath), ⟨["my"], "x"⟩] ∧
    (⟨[], "my"⟩ : FPath) ∈ [(⟨[], "my"⟩ : FPath), ⟨["my"], "x"⟩] :=
  ⟨by decide, by decide, by decide, by decide⟩

/-- C7, witness: the amended theorem applied to a non-empty folder with a
Cyrillic name. -/
theorem c7_witness :
    (Normalize.normalize (pyStemStr (FPath.mk [] "док").name) = (FPath.mk [] "док").name →
      handleFolderStep [⟨[], "док"⟩, ⟨["док"], "x"⟩] ⟨[], "док"⟩
        = [⟨[], "док"⟩, ⟨["док"], "x"⟩]) ∧
    (Normalize.normalize (pyStemStr (FPath.mk [] "док").name) ≠ (FPath.mk [] "док").name →
      ∃ r, handleFolderStep [⟨[], "док"⟩, ⟨["док"], "x"⟩] ⟨[], "док"⟩
          = [(⟨[], "док"⟩ : FPath), ⟨["док"], "x"⟩].map (reroot ⟨[], "док"⟩ r) ∧
        r.dirs = (FPath.mk [] "док").dirs ∧
        (r = withName ⟨[], "док"⟩ (Normalize.normalize (pyStemStr (FPath.mk [] "док").name)) ∨
          (withName ⟨[], "док"⟩ (Normalize.normalize (pyStemStr (FPath.mk [] "док").name))
              ∈ [(⟨[], "док"⟩ : FPath), ⟨["док"], "x"⟩] ∧
            r ∉ [(⟨[], "док"⟩ : FPath), ⟨["док"], "x"⟩]))) :=
  c7_handle_folders [⟨[], "док"⟩, ⟨["док"], "x"⟩] ⟨[], "док"⟩ (by decide) (by decide)

/-! ## Claim C5: the known/unknown extension sets partition -/

/-- Membership after a set insertion. -/
theorem mem_insertStr {e x : String} {l : List String} :
    e ∈ insertStr x l ↔ e = x ∨ e ∈ l := by
  unfold insertStr
  by_cases h : x ∈ l
  · simp only [h, if_true]
    constructor
    · exact Or.inr
    · rintro (rfl | he)
      · exact h
      · exact he
  · simp [h, List.mem_cons]

/-- One `handle_file` update only grows each set. -/
theorem handleFileSets_mono (root : FPath) (st : List String × List String)
    (f : FPath) {e : String} :
    (e ∈ st.1 → e ∈ (handleFileSets root st f).1) ∧
    (e ∈ st.2 → e ∈ (handleFileSets root st f).2) := by
  unfold handleFileSets
  rcases getTargetFolder root (extOf f) with _ | d <;>
    exact ⟨fun h => by simp [mem_insertStr, h], fun h => by simp [mem_insertStr, h]⟩

/-- Folding `handle_file` updates only grows each set. -/
theorem foldl_sets_mono (root : FPath) (files : List FPath) :
    ∀ (st : List String × List String) (e : String),
      (e ∈ st.1 → e ∈ (files.foldl (handleFileSets root) st).1) ∧
      (e ∈ st.2 → e ∈ (files.foldl (handleFileSets root) st).2) := by
  induction files with
  | nil => intro st e; exact ⟨id, id⟩
  | cons g rest ih =>
    intro st e
    refine ⟨fun h => ?_, fun h => ?_⟩
    · exact (ih (handleFileSets root st g) e).1 ((handleFileSets_mono root st g).1 h)
    · exact (ih (handleFileSets root st g) e).2 ((handleFileSets_mono root st g).2 h)

/-- Every processed file's extension lands in one of the two sets. -/
theorem foldl_sets_covers (root : FPath) (files : List FPath) :
    ∀ (st : List String × List String) (f : FPath), f ∈ files →
      extOf f ∈ (files.foldl (handleFileSets root) st).1 ∨
      extOf f ∈ (files.foldl (handleFileSets root) st).2 := by
  induction files with
  | nil => intro st f hf; cases hf
  | cons g rest ih =>
    intro st f hf
    rcases List.mem_cons.mp hf with rfl | hf
    · have hadd : extOf f ∈ (handleFileSets root st f).1 ∨
          extOf f ∈ (handleFileSets root st f).2 := by
        unfold handleFileSets
        rcases getTargetFolder root (extOf f) with _ | d
        · right; simp [mem_insertStr]
        · left; simp [mem_insertStr]
      rcases hadd with h | h
      · exact Or.inl ((foldl_sets_mono root rest _ _).1 h)
      · exact Or.inr ((foldl_sets_mono root rest _ _).2 h)
    · exact ih _ f hf

/-- Invariant: `known_formats` holds only classified extensions,
`unknown_formats` only unclassified ones. -/
theorem foldl_sets_invariant (root : FPath) (files : List FPath) :
    ∀ (st : List String × List String),
      (∀ e ∈ st.1, (getTargetFolder root e).isSome = true) →
      (∀ e ∈ st.2, getTargetFolder root e = none) →
      (∀ e ∈ (files.foldl (handleFileSets root) st).1,
        (getTargetFolder root e).isSome = true) ∧
      (∀ e ∈ (files.foldl (handleFileSets root) st).2,
        getTargetFolder root e = none) := by
  induction files with
  | nil => intro st h1 h2; exact ⟨h1, h2⟩
  | cons g rest ih =>
    intro st h1 h2
    refine ih (handleFileSets root st g) ?_ ?_
    · intro e he
      unfold handleFileSets at he
      rcases hcl : getTargetFolder root (extOf g) with _ | d
      · rw [hcl] at he
        exact h1 e he
      · rw [hcl] at he
        rcases mem_insertStr.mp he with rfl | he
        · simp [hcl]
        · exact h1 e he
    · intro e he
      unfold handleFileSets at he
      rcases hcl : getTargetFolder root (extOf g) with _ | d
      · rw [hcl] at he
        rcases mem_insertStr.mp he with rfl | he
        · exact hcl
        · exact h2 e he
      · rw [hcl] at he
        exact h2 e he

/-- C5.  Starting from empty shared sets, after any sequence of
`handle_file` set updates every processed file's extension is in exactly
one of `known_formats` and `unknown_formats`, never in both: membership is
decided by the (deterministic) classification of the extension. -/
theorem c5_extension_partition (root : FPath) (files : List FPath) (f : FPath)
    (hf : f ∈ files) :
    (extOf f ∈ (files.foldl (handleFileSets root) ([], [])).1 ∧
      extOf f ∉ (files.foldl (handleFileSets root) ([], [])).2) ∨
    (extOf f ∈ (files.foldl (handleFileSets root) ([], [])).2 ∧
      extOf f ∉ (files.foldl (handleFileSets root) ([], [])).1) := by
  have hinv := foldl_sets_invariant root files ([], [])
    (by intro e he; cases he) (by intro e he; cases he)
  rcases foldl_sets_covers root files ([], []) f hf with h | h
  · refine Or.inl ⟨h, fun habs => ?_⟩
    have h1 := hinv.1 _ h
    have h2 := hinv.2 _ habs
    rw [h2] at h1
    cases h1
  · refine Or.inr ⟨h, fun habs => ?_⟩
    have h1 := hinv.1 _ habs
    have h2 := hinv.2 _ h
    rw [h2] at h1
    cases h1

/-- C5, witness: a recognized and an unrecognized extension. -/
theorem c5_witness :
    (extOf ⟨["root"], "a.jpg"⟩
        ∈ ([(⟨["root"], "a.jpg"⟩ : FPath), ⟨["root"], "b.xyz"⟩].foldl
            (handleFileSets ⟨[], "root"⟩) ([], [])).1 ∧
      extOf ⟨["root"], "a.jpg"⟩
        ∉ ([(⟨["root"], "a.jpg"⟩ : FPath), ⟨["root"], "b.xyz"⟩].foldl
            (handleFileSets ⟨[], "root"⟩) ([], [])).2) ∨
    (extOf ⟨["root"], "a.jpg"⟩
        ∈ ([(⟨["root"], "a.jpg"⟩ : FPath), ⟨["root"], "b.xyz"⟩].foldl
            (handleFileSets ⟨[], "root"⟩) ([], [])).2 ∧
      extOf ⟨["root"], "a.jpg"⟩
        ∉ ([(⟨["root"], "a.jpg"⟩ : FPath), ⟨["root"], "b.xyz"⟩].foldl
            (handleFileSets ⟨[], "root"⟩) ([], [])).1) :=
  c5_extension_partition ⟨[], "root"⟩
    [⟨["root"], "a.jpg"⟩, ⟨["root"], "b.xyz"⟩] ⟨["root"], "a.jpg"⟩ (by decide)

/-! ## `CleanFolder.scan_dir`

    for cur_path in cur_dir.iterdir():
        if cur_path in self.target_pathes:
            continue
        if cur_path.is_file():
            self.handle_file(cur_path)
        elif cur_path.is_dir():
            with self.locker:
                self.folders.append(cur_path)
            self.execute_in_thread(self.scan_dir, cur_path)

For the skip property the tree is static data: whether a child is skipped
is pure path equality against the five destination paths, independent of
the concurrent moves.  Sibling/recursion interleaving is nondeterministic
in the source (tasks run on a pool), so only the *sets* of processed
files and recorded directories are modelled. -/

/-- A directory tree entry. -/
inductive Entry where
  | file (name : String)
  | dir (name : String) (children : List Entry)
  deriving Repr

/-- `scan_dir` as a collector: the files passed to `handle_file` and the
directories appended to the registry (each recorded directory is also
scanned recursively). -/
def scanChildren (targets : List FPath) (cur : FPath) :
    List Entry → List FPath × List FPath
  | [] => ([], [])
  | Entry.file n :: rest =>
    let p := childPath cur n
    let r := scanChildren targets cur rest
    if p ∈ targets then r else (p :: r.1, r.2)
  | Entry.dir n cs :: rest =>
    let p := childPath cur n
    let r := scanChildren targets cur rest
    if p ∈ targets then r
    else
      let c := scanChildren targets p cs
      (c.1 ++ r.1, p :: (c.2 ++ r.2))

/-- The parent of a joined child is the directory it was joined to. -/
theorem pathParent_childPath (cur : FPath) (n : String) :
    pathParent (childPath cur n) = some cur := by
  simp [pathParent, childPath]

/-- Auxiliary induction for C6: starting from a non-destination directory,
every directory recursed into is a non-destination and every processed
file's parent is a non-destination. -/
theorem c6_scan_aux (targets : List FPath) (cur : FPath) (es : List Entry) :
    cur ∉ targets →
      (∀ d ∈ (scanChildren targets cur es).2, d ∉ targets) ∧
      (∀ f ∈ (scanChildren targets cur es).1,
        ∃ par, pathParent f = some par ∧ par ∉ targets) := by
  induction cur, es using scanChildren.induct targets with
  | case1 cur =>
    intro _
    constructor <;> intro x hx <;> simp [scanChildren] at hx
  | case2 cur n rest p hp ih =>
    intro hcur
    rcases ih hcur with ⟨ihd, ihf⟩
    have hs : scanChildren targets cur (Entry.file n :: rest)
        = scanChildren targets cur rest := by
      simp [scanChildren, hp]
    rw [hs]
    exact ⟨ihd, ihf⟩
  | case3 cur n rest p hp ih =>
    intro hcur
    rcases ih hcur with ⟨ihd, ihf⟩
    have hs : scanChildren targets cur (Entry.file n :: rest)
        = (childPath cur n :: (scanChildren targets cur rest).1,
           (scanChildren targets cur rest).2) := by
      simp [scanChildren, hp]
    rw [hs]
    refine ⟨ihd, ?_⟩
    intro f hf
    rcases List.mem_cons.mp hf with rfl | hf
    · exact ⟨cur, pathParent_childPath cur n, hcur⟩
    · exact ihf f hf
  | case4 cur n cs rest p hp ih =>
    intro hcur
    rcases ih hcur with ⟨ihd, ihf⟩
    have hs : scanChildren targets cur (Entry.dir n cs :: rest)
        = scanChildren targets cur rest := by
      simp [scanChildren, hp]
    rw [hs]
    exact ⟨ihd, ihf⟩
  | case5 cur n cs rest p hp ih ihc =>
    intro hcur
    rcases ih hcur with ⟨ihd, ihf⟩
    rcases ihc hp with ⟨ihcd, ihcf⟩
    have hs : scanChildren targets cur (Entry.dir n cs :: rest)
        = ((scanChildren targets (childPath cur n) cs).1
            ++ (scanChildren targets cur rest).1,
           childPath cur n :: ((scanChildren targets (childPath cur n) cs).2
            ++ (scanChildren targets cur rest).2)) := by
      simp [scanChildren, hp]
    rw [hs]
    constructor
    · intro d hd
      rcases List.mem_cons.mp hd with rfl | hd
      · exact hp
      · rcases List.mem_append.mp hd with h | h
        · exact ihcd d h
        · exact ihd d h
    · intro f hf
      rcases List.mem_append.mp hf with h | h
      · exact ihcf f h
      · exact ihf f h

/-- The scan root is never one of its own destination folders (they lie
strictly below it). -/
theorem root_not_target (root : FPath) : root ∉ targetPathes root := by
  intro h
  rcases List.mem_map.mp h with ⟨kv, _, hkv⟩
  have := congrArg (fun q : FPath => q.dirs.length) hkv
  simp [childPath] at this

/-- C6.  Scanning any tree from the root: no directory the scanner
records or recurses into is one of the five `root/<category>` destination
paths, and every file passed to `handle_file` sits in a directory that is
not a destination path — the scanner skips destination folders before
doing anything with them. -/
theorem c6_scan_never_enters_destinations (root : FPath) (es : List Entry) :
    (∀ d ∈ (scanChildren (targetPathes root) root es).2, d ∉ targetPathes root) ∧
    (∀ f ∈ (scanChildren (targetPathes root) root es).1,
      ∃ par, pathParent f = some par ∧ par ∉ targetPathes root) :=
  c6_scan_aux (targetPathes root) root es (root_not_target root)

/-- C6, witness: in a small tree, the subdirectory `sub` is recorded by
the scanner and is indeed not a destination folder. -/
theorem c6_witness :
    (⟨["root"], "sub"⟩ : FPath) ∉ targetPathes ⟨[], "root"⟩ :=
  (c6_scan_never_enters_destinations ⟨[], "root"⟩
      [Entry.dir "sub" [Entry.file "x.pdf"], Entry.file "a.jpg"]).1
    ⟨["root"], "sub"⟩ (by simp [scanChildren, targetPathes, FORMATS_DICT, childPath])

/-! ## The task pool: `execute_in_thread`, `wait_for_result`, `main`

    def execute_in_thread(self, command, *args):
        future = self.executor.submit(command, *args)
        self.thread_pool.append(future)

    def wait_for_result(self) -> list:
        result = []
        for future in self.thread_pool:
            result.append(future.result())
        self.thread_pool = []
        return result

    def main() -> bool:
        ...
        cleaner.scan_dir(cleaner.path)
        cleaner.wait_for_result()
        cleaner.handle_folders(cleaner.folders)
        cleaner.postprocessing()
        ...
        cleaner.executor.shutdown()
        return 0

A completed task's outcome is `Except String Unit`; `future.result()`
re-raises the task's exception. -/

/-- `wait_for_result`: walk the pool in submission order; the first
failing `future.result()` re-raises (and `main` does not catch it). -/
def waitForResult : List (Except String Unit) → Except String (List Unit)
  | [] => .ok []
  | .ok u :: rest => (waitForResult rest).map (u :: ·)
  | .error e :: _ => .error e

/-- `main` after argument validation, parameterized by the outcomes of
the scan/move-phase tasks and of the archive tasks that `postprocessing`
submits.  `.error e` models the process dying on an uncaught exception
(non-zero outcome); `.ok 0` models `main` returning normally (exit
code 0).  `main` drains the pool exactly once, *before* `postprocessing`;
the archive futures appended afterwards are never drained —
`executor.shutdown()` waits for them but discards their outcomes — and
`main` returns 0 regardless. -/
def mainModel (scanTasks archiveTasks : List (Except String Unit)) :
    Except String Nat :=
  match waitForResult scanTasks with
  | .error e => .error e
  | .ok _ =>
    -- handle_folders, then postprocessing appends `archiveTasks` to the
    -- pool; no second wait_for_result follows, so the outcomes in
    -- `archiveTasks` are dropped here exactly as in `main`.
    .ok 0

/-- C8 (code bug).  A scan-phase task failure does surface through the
drain and aborts the run, but an archive-unpack task failure dispatched
during `postprocessing` is silently discarded: `main` never drains the
pool again and reports success (0) even though a dispatched task failed,
contradicting the claim (and spec §7) that every task-local failure
surfaces through the drain and yields a non-zero outcome. -/
theorem c8_archive_failure_not_surfaced :
    mainModel [] [Except.error "unpack failed"] = Except.ok 0 ∧
    mainModel [Except.error "move failed"] [] = Except.error "move failed" :=
  ⟨rfl, rfl⟩

/-! ## `postprocessing` and `handle_archive`

    def postprocessing(self):
        for folder in self.target_pathes:
            if not folder.exists():
                continue
            if folder.name == "archives":
                for arch in folder.iterdir():
                    if arch.is_dir():
                        continue
                    self.execute_in_thread(self.handle_archive, arch)
            for obj in folder.iterdir():
                logging.info(...)

    def handle_archive(self, path):
        folder = path.parent
        unpack_archive(path, Path(folder, path.stem))
        path.unlink()

The filesystem carries a directory flag here (`arch.is_dir()`), so it is
a list of `(path, isDir)` entries.  `unpack_archive` is an external
collaborator (spec §4.8, §9): an oracle that transforms the filesystem or
fails. -/

/-- The archive tasks `postprocessing` dispatches: one `handle_archive`
per non-directory entry directly inside the existing `archives`
destination folder; the other category folders only get logged. -/
def postprocessingTasks (root : FPath) (fs : List (FPath × Bool)) : List FPath :=
  (targetPathes root).flatMap (fun folder =>
    if folder ∈ fs.map Prod.fst then
      if folder.name = "archives" then
        (fs.filter (fun e => decide (e.1.dirs = folder.comps) && !e.2)).map Prod.fst
      else []
    else [])

/-- `handle_archive`: unpack into the sibling `parent/stem`, then unlink
the archive.  If `unpack_archive` raises, the `unlink` line is never
reached: the task fails with that error and the filesystem is whatever
the failed unpack left (the oracle's concern) — crucially, no deletion
happens. -/
def handleArchive
    (unpack : FPath → FPath → List (FPath × Bool) → Except String (List (FPath × Bool)))
    (fs : List (FPath × Bool)) (p : FPath) : Except String (List (FPath × Bool)) :=
  match unpack p ⟨p.dirs, pyStemStr p.name⟩ fs with
  | .error e => .error e
  | .ok fs' => .ok (fs'.filter (fun e => e.1 ≠ p))

/-- A target-path with name `archives` is the archives destination. -/
theorem target_name_archives (root : FPath) (folder : FPath)
    (hmem : folder ∈ targetPathes root) (hname : folder.name = "archives") :
    folder = childPath root "archives" := by
  rcases List.mem_map.mp hmem with ⟨kv, _, rfl⟩
  have : kv.1 = "archives" := hname
  rw [childPath, this]
  rfl

/-- C9.  `postprocessing` dispatches `handle_archive` exactly for the
non-directory entries directly inside the (existing) archives destination
folder; `handle_archive` unpacks into the sibling folder named after the
archive's stem and deletes the archive afterwards — an unpack failure
propagates as that task's error and the `unlink` line is never reached,
while a successful unpack is followed by the deletion of the archive
entry. -/
theorem c9_archive_unpack_then_delete (root : FPath) (fs : List (FPath × Bool))
    (unpack : FPath → FPath → List (FPath × Bool) → Except String (List (FPath × Bool)))
    (p : FPath) :
    (p ∈ postprocessingTasks root fs ↔
      childPath root "archives" ∈ fs.map Prod.fst ∧
      (p, false) ∈ fs ∧ p.dirs = (childPath root "archives").comps) ∧
    (∀ e, unpack p ⟨p.dirs, pyStemStr p.name⟩ fs = .error e →
      handleArchive unpack fs p = .error e) ∧
    (∀ fs', unpack p ⟨p.dirs, pyStemStr p.name⟩ fs = .ok fs' →
      handleArchive unpack fs p = .ok (fs'.filter (fun e => e.1 ≠ p)) ∧
      ∀ b : Bool, (p, b) ∉ fs'.filter (fun e => e.1 ≠ p)) := by
  refine ⟨⟨?_, ?_⟩, ?_, ?_⟩
  · intro hp
    rcases List.mem_flatMap.mp hp with ⟨folder, hfmem, hpin⟩
    by_cases h1 : folder ∈ fs.map Prod.fst
    · rw [if_pos h1] at hpin
      by_cases h2 : folder.name = "archives"
      · rw [if_pos h2] at hpin
        rcases List.mem_map.mp hpin with ⟨e, hef, hep⟩
        have hfold := target_name_archives root folder hfmem h2
        rcases List.mem_filter.mp hef with ⟨hefs, hpred⟩
        have hdirs : e.1.dirs = folder.comps ∧ e.2 = false := by
          simpa using hpred
        have he : e = (p, false) := by
          rcases e with ⟨q, b⟩
          cases hep
          have hb : b = false := hdirs.2
          rw [hb]
        subst hfold
        refine ⟨h1, ?_, ?_⟩
        · rw [← he]; exact hefs
        · rw [← hep]; exact hdirs.1
      · rw [if_neg h2] at hpin
        cases hpin
    · rw [if_neg h1] at hpin
      cases hpin
  · rintro ⟨harch, hpf, hdirs⟩
    refine List.mem_flatMap.mpr ⟨childPath root "archives", ?_, ?_⟩
    · simp [targetPathes, FORMATS_DICT, childPath]
    · rw [if_pos harch,
        if_pos (show (childPath root "archives").name = "archives" from rfl)]
      exact List.mem_map.mpr ⟨(p, false),
        List.mem_filter.mpr ⟨hpf, by simp [hdirs]⟩, rfl⟩
  · intro e he
    simp [handleArchive, he]
  · intro fs' h
    refine ⟨by simp [handleArchive, h], ?_⟩
    intro b hb
    rcases List.mem_filter.mp hb with ⟨_, hpred⟩
    simp at hpred

/-- C9, witness: a single archive `a.zip` inside `root/archives`, with an
unpack oracle that succeeds without touching the filesystem: the task is
dispatched for it, and afterwards the archive entry is gone. -/
theorem c9_witness :
    handleArchive (fun _ _ f => Except.ok f)
        [(⟨["root"], "archives"⟩, true), (⟨["root", "archives"], "a.zip"⟩, false)]
        ⟨["root", "archives"], "a.zip"⟩
      = Except.ok [(⟨["root"], "archives"⟩, true)] ∧
    (⟨["root", "archives"], "a.zip"⟩ : FPath) ∈
      postprocessingTasks ⟨[], "root"⟩
        [(⟨["root"], "archives"⟩, true), (⟨["root", "archives"], "a.zip"⟩, false)] := by
  have h := c9_archive_unpack_then_delete ⟨[], "root"⟩
      [(⟨["root"], "archives"⟩, true), (⟨["root", "archives"], "a.zip"⟩, false)]
      (fun _ _ f => Except.ok f) ⟨["root", "archives"], "a.zip"⟩
  refine ⟨?_, ?_⟩
  · have hok := (h.2.2 _ rfl).1
    rw [hok]
    rfl
  · exact h.1.mpr ⟨by decide, by decide, by decide⟩
